import Mathlib

/-!
Shallow embedding of `src/codec/ascii.rs` from rust-encoding: the 7-bit
ASCII encoding.  Bytes are modelled as `Nat` (with the hypothesis `< 256`
where the byte range matters), characters as `Nat` code points, and the
output sink as the list of bytes appended during a call.
-/

namespace AsciiCodec

/-- Errors reported by the codec: `upto` is an `isize` offset into the
original input, `cause` a human-readable tag. -/
structure CodecError where
  upto : Int
  cause : String
deriving Repr, DecidableEq

/-- Vector lane count of the SSE2 path (`CHUNK_SIZE` in the source). -/
def CHUNK_SIZE : Nat := 16

/-- Embedding of `slow_raw_feed(input, output, sofar)`: linear search from
`sofar` for the first byte with `ch >= 0x80`; returns the scan result and
the bytes written (`input[..result]`, a single bulk append). -/
def slow_raw_feed (input : List Nat) (sofar : Nat) : Nat × List Nat :=
  let r := match (input.drop sofar).findIdx? (fun ch => decide (0x80 ≤ ch)) with
    | some first_error => sofar + first_error
    | none => input.length
  (r, input.take r)

/-- Embedding of the scalar `raw_feed` (the non-SIMD `cfg` arm), which just
calls `slow_raw_feed` at offset 0. -/
def raw_feed (input : List Nat) : Nat × List Nat :=
  slow_raw_feed input 0

/-- SSE2 `movemask` on a chunk of byte lanes: bit `i` of the result is the
high bit (bit 7) of lane `i`, lane order preserved (lane 0 at the least
significant bit). -/
def movemask : List Nat → Nat
  | [] => 0
  | b :: rest => (if b.testBit 7 then 1 else 0) + 2 * movemask rest

/-- `u16::trailing_zeros`: the index of the least significant set bit
(16 when the value is zero, as for `0u16`). -/
def trailingZerosU16 (n : Nat) : Nat :=
  if _h : n = 0 then 16
  else if n % 2 = 1 then 0
  else trailingZerosU16 (n / 2) + 1
decreasing_by exact Nat.div_lt_self (Nat.pos_of_ne_zero _h) (by decide)

/-- The `while sofar != total` loop of the SSE2 `raw_feed`, with explicit
fuel (the loop runs `total / CHUNK_SIZE` iterations; any fuel at least
that large gives the source's behaviour).  Each iteration loads a 16-byte
chunk at `sofar`, takes its `movemask`, and either skips the chunk (mask
zero) or writes the valid prefix and returns. -/
def raw_feed_simd_go (input : List Nat) (total : Nat) : Nat → Nat → Nat × List Nat
  | 0, sofar => slow_raw_feed input sofar
  | fuel + 1, sofar =>
    if sofar = total then
      slow_raw_feed input sofar
    else
      let v := (input.drop sofar).take CHUNK_SIZE
      let mask := movemask v
      if mask = 0 then
        raw_feed_simd_go input total fuel (sofar + CHUNK_SIZE)
      else
        let sofar' := sofar + trailingZerosU16 mask
        (sofar', input.take sofar')

/-- Embedding of the SSE2 `raw_feed`: `total = input.len() / CHUNK_SIZE *
CHUNK_SIZE`, loop from `sofar = 0`, then hand the tail to
`slow_raw_feed`. -/
def raw_feed_simd (input : List Nat) : Nat × List Nat :=
  let total := input.length / CHUNK_SIZE * CHUNK_SIZE
  raw_feed_simd_go input total total 0

/-- `char::len_utf8` for a code point. -/
def utf8Len (c : Nat) : Nat :=
  if c < 0x80 then 1 else if c < 0x800 then 2 else if c < 0x10000 then 3 else 4

/-- The UTF-8 bytes of one code point (what `str` stores for one `char`). -/
def utf8EncodeChar (c : Nat) : List Nat :=
  if c < 0x80 then [c]
  else if c < 0x800 then [0xC0 + c / 64, 0x80 + c % 64]
  else if c < 0x10000 then [0xE0 + c / 4096, 0x80 + c / 64 % 64, 0x80 + c % 64]
  else [0xF0 + c / 262144, 0x80 + c / 4096 % 64, 0x80 + c / 64 % 64, 0x80 + c % 64]

/-- `input.as_bytes()` for a `&str` modelled as its list of code points. -/
def utf8Bytes (input : List Nat) : List Nat :=
  (input.map utf8EncodeChar).flatten

/-- A valid Rust `char`: a Unicode scalar value. -/
def ValidChar (c : Nat) : Prop :=
  c < 0x110000 ∧ ¬(0xD800 ≤ c ∧ c < 0xE000)

instance (c : Nat) : Decidable (ValidChar c) := by
  unfold ValidChar; infer_instance

/-- `input[off..].chars().next()` on a `&str` modelled as code points:
`none` when `off` is not a character boundary (where the Rust slice would
panic) or past the end (where `next()` is `None` and `unwrap` panics). -/
def charAtByteOffset : List Nat → Nat → Option Nat
  | [], _ => none
  | c :: rest, off =>
    if off = 0 then some c
    else if off < utf8Len c then none
    else charAtByteOffset rest (off - utf8Len c)

/-- Embedding of `ASCIIEncoder::raw_feed` (scalar scan path): the result is
`some (consumed, error, bytes appended to the sink)`, or `none` where the
source would panic at the `unwrap`. -/
def encoderRawFeed (input : List Nat) : Option (Nat × Option CodecError × List Nat) :=
  let bytes := utf8Bytes input
  let scanned := raw_feed bytes
  let first_error := scanned.1
  if first_error < bytes.length then
    match charAtByteOffset input first_error with
    | some c =>
      some (first_error,
        some ⟨(first_error + utf8Len c : Nat), "unrepresentable character"⟩,
        scanned.2)
    | none => none
  else
    some (first_error, none, scanned.2)

/-- Embedding of `ASCIIDecoder::raw_feed` (scalar scan path): returns
`(consumed, error, bytes appended to the string sink through its byte
writer)`. -/
def decoderRawFeed (input : List Nat) : Nat × Option CodecError × List Nat :=
  let scanned := raw_feed input
  let first_error := scanned.1
  if first_error < input.length then
    (first_error, some ⟨(first_error : Int) + 1, "invalid sequence"⟩, scanned.2)
  else
    (first_error, none, scanned.2)

/-- Embedding of `ASCIIEncoder::raw_finish`: ignores the sink, returns
`None`, appends nothing. -/
def encoderRawFinish (sink : List Nat) : Option CodecError × List Nat :=
  (none, sink)

/-- Embedding of `ASCIIDecoder::raw_finish`: ignores the sink, returns
`None`, appends nothing. -/
def decoderRawFinish (sink : List Nat) : Option CodecError × List Nat :=
  (none, sink)

/-- `ASCIIEncoder::is_ascii_compatible`. -/
def encoderIsAsciiCompatible : Bool := true

/-- `ASCIIDecoder::is_ascii_compatible`. -/
def decoderIsAsciiCompatible : Bool := true

/-- Successive `ASCIIEncoder::raw_feed` calls on one (stateless) encoder
session: accumulates the total consumed count and the sink contents;
`none` if any call hits the panic case. -/
def encoderFeedChunks : List (List Nat) → Nat × List Nat → Option (Nat × List Nat)
  | [], acc => some acc
  | chunk :: rest, acc =>
    match encoderRawFeed chunk with
    | some r => encoderFeedChunks rest (acc.1 + r.1, acc.2 ++ r.2.2)
    | none => none

/-- Successive `ASCIIDecoder::raw_feed` calls on one (stateless) decoder
session: accumulates the total consumed count and the sink contents. -/
def decoderFeedChunks : List (List Nat) → Nat × List Nat → Nat × List Nat
  | [], acc => acc
  | chunk :: rest, acc =>
    let r := decoderRawFeed chunk
    decoderFeedChunks rest (acc.1 + r.1, acc.2 ++ r.2.2)

/-! ### Helper lemmas about the scalar scan -/

theorem slow_raw_feed_shift (input : List Nat) (sofar : Nat)
    (hle : sofar ≤ input.length) (hpre : ∀ x ∈ input.take sofar, x < 0x80) :
    slow_raw_feed input sofar = slow_raw_feed input 0 := by
  unfold slow_raw_feed
  have hnone : (input.take sofar).findIdx? (fun ch => decide (0x80 ≤ ch)) = none := by
    rw [List.findIdx?_eq_none_iff]
    intro x hx
    simp [Nat.not_le.mpr (hpre x hx)]
  have hlen : (input.take sofar).length = sofar := by
    rw [List.length_take]; omega
  have h1 : input.findIdx? (fun ch => decide (0x80 ≤ ch))
      = Option.map (fun i => i + sofar)
        ((input.drop sofar).findIdx? (fun ch => decide (0x80 ≤ ch))) := by
    conv_lhs => rw [← List.take_append_drop sofar input]
    rw [List.findIdx?_append, hnone, hlen]
    simp
  simp only [List.drop_zero]
  rw [h1]
  cases hfe : (input.drop sofar).findIdx? (fun ch => decide (0x80 ≤ ch)) with
  | none => simp
  | some k => simp [Nat.add_comm]

theorem slow_raw_feed_first_high (pre : List Nat) (b : Nat) (suf : List Nat)
    (hpre : ∀ x ∈ pre, x < 0x80) (hb : 0x80 ≤ b) :
    slow_raw_feed (pre ++ b :: suf) 0 = (pre.length, pre) := by
  unfold slow_raw_feed
  have hnone : pre.findIdx? (fun ch => decide (0x80 ≤ ch)) = none := by
    rw [List.findIdx?_eq_none_iff]
    intro x hx
    simp [Nat.not_le.mpr (hpre x hx)]
  have hcons : (b :: suf).findIdx? (fun ch => decide (0x80 ≤ ch)) = some 0 := by
    rw [List.findIdx?_cons]
    simp [hb]
  simp only [List.drop_zero, List.findIdx?_append, hnone, hcons, Option.none_or,
    Option.map_some]
  simp [List.take_left]

theorem slow_raw_feed_all_ascii (input : List Nat)
    (h : ∀ x ∈ input, x < 0x80) :
    slow_raw_feed input 0 = (input.length, input) := by
  unfold slow_raw_feed
  have hnone : input.findIdx? (fun ch => decide (0x80 ≤ ch)) = none := by
    rw [List.findIdx?_eq_none_iff]
    intro x hx
    simp [Nat.not_le.mpr (h x hx)]
  simp [hnone, List.take_length]

/-! ### Helper lemmas about UTF-8 -/

theorem utf8EncodeChar_ascii (c : Nat) (h : c < 0x80) :
    utf8EncodeChar c = [c] := by
  simp [utf8EncodeChar, h]

theorem utf8Len_ascii (c : Nat) (h : c < 0x80) : utf8Len c = 1 := by
  simp [utf8Len, h]

theorem utf8Bytes_ascii (l : List Nat) (h : ∀ c ∈ l, c < 0x80) :
    utf8Bytes l = l := by
  induction l with
  | nil => rfl
  | cons c rest ih =>
    have hc : c < 0x80 := h c (List.mem_cons_self c rest)
    have hrest : ∀ x ∈ rest, x < 0x80 := fun x hx => h x (List.mem_cons_of_mem c hx)
    simp [utf8Bytes, utf8EncodeChar_ascii c hc]
    simpa [utf8Bytes] using ih hrest

theorem utf8Bytes_append (l₁ l₂ : List Nat) :
    utf8Bytes (l₁ ++ l₂) = utf8Bytes l₁ ++ utf8Bytes l₂ := by
  simp [utf8Bytes]

theorem utf8EncodeChar_head_high (c : Nat) (h : 0x80 ≤ c) :
    ∃ hd tl, utf8EncodeChar c = hd :: tl ∧ 0x80 ≤ hd := by
  unfold utf8EncodeChar
  split_ifs with h1 h2 h3
  · omega
  · exact ⟨_, _, rfl, by omega⟩
  · exact ⟨_, _, rfl, by omega⟩
  · exact ⟨_, _, rfl, by omega⟩

theorem charAtByteOffset_after_ascii (pre : List Nat) (c : Nat) (suf : List Nat)
    (hpre : ∀ x ∈ pre, x < 0x80) :
    charAtByteOffset (pre ++ c :: suf) pre.length = some c := by
  induction pre with
  | nil => simp [charAtByteOffset]
  | cons a pre' ih =>
    have ha : a < 0x80 := hpre a (List.mem_cons_self a pre')
    have hpre' : ∀ x ∈ pre', x < 0x80 := fun x hx => hpre x (List.mem_cons_of_mem a hx)
    simp only [List.cons_append, charAtByteOffset, List.length_cons,
      utf8Len_ascii a ha]
    have h1 : pre'.length + 1 ≠ 0 := by omega
    have h2 : ¬(pre'.length + 1 < 1) := by omega
    simp [h1, h2, ih hpre']

/-! ### Encoder and decoder characterizations -/

theorem encoderRawFeed_all_ascii (input : List Nat)
    (h : ∀ c ∈ input, c < 0x80) :
    encoderRawFeed input = some (input.length, none, input) := by
  unfold encoderRawFeed raw_feed
  simp only [utf8Bytes_ascii input h, slow_raw_feed_all_ascii input h]
  simp

theorem decoderRawFeed_all_ascii (input : List Nat)
    (h : ∀ b ∈ input, b < 0x80) :
    decoderRawFeed input = (input.length, none, input) := by
  unfold decoderRawFeed raw_feed
  rw [slow_raw_feed_all_ascii input h]
  simp

theorem decoderRawFeed_first_high (pre : List Nat) (b : Nat) (suf : List Nat)
    (hpre : ∀ x ∈ pre, x < 0x80) (hb : 0x80 ≤ b) :
    decoderRawFeed (pre ++ b :: suf)
      = (pre.length, some ⟨(pre.length : Int) + 1, "invalid sequence"⟩, pre) := by
  unfold decoderRawFeed raw_feed
  rw [slow_raw_feed_first_high pre b suf hpre hb]
  have hlt : pre.length < (pre ++ b :: suf).length := by
    simp
  simp [hlt]

theorem encoderRawFeed_first_high (pre : List Nat) (c : Nat) (suf : List Nat)
    (hpre : ∀ x ∈ pre, x < 0x80) (hc : 0x80 ≤ c) :
    encoderRawFeed (pre ++ c :: suf)
      = some (pre.length,
          some ⟨((pre.length + utf8Len c : Nat) : Int), "unrepresentable character"⟩,
          pre) := by
  obtain ⟨hd, tl, hct, hhd⟩ := utf8EncodeChar_head_high c hc
  have hbytes : utf8Bytes (pre ++ c :: suf)
      = pre ++ hd :: (tl ++ utf8Bytes suf) := by
    rw [utf8Bytes_append]
    rw [utf8Bytes_ascii pre hpre]
    have : utf8Bytes (c :: suf) = utf8EncodeChar c ++ utf8Bytes suf := by
      simp [utf8Bytes]
    rw [this, hct]
    simp
  unfold encoderRawFeed raw_feed
  rw [hbytes]
  simp only [slow_raw_feed_first_high pre hd (tl ++ utf8Bytes suf) hpre hhd]
  have hlt : pre.length < (pre ++ hd :: (tl ++ utf8Bytes suf)).length := by
    simp
  simp only [hlt, if_pos]
  rw [charAtByteOffset_after_ascii pre c suf hpre]

theorem first_high_decomposition (input : List Nat) (p : Nat)
    (hp : p ∈ input) (hhigh : 0x80 ≤ p) :
    ∃ pre c suf, input = pre ++ c :: suf ∧ (∀ x ∈ pre, x < 0x80) ∧ 0x80 ≤ c := by
  induction input with
  | nil => cases hp
  | cons a rest ih =>
    by_cases ha : 0x80 ≤ a
    · exact ⟨[], a, rest, rfl, by simp, ha⟩
    · have hp' : p ∈ rest := by
        cases List.mem_cons.mp hp with
        | inl h => omega
        | inr h => exact h
      obtain ⟨pre, c, suf, heq, hpre, hc⟩ := ih hp'
      refine ⟨a :: pre, c, suf, by rw [heq]; rfl, ?_, hc⟩
      intro x hx
      cases List.mem_cons.mp hx with
      | inl h => omega
      | inr h => exact hpre x h

/-! ### Helper lemmas about the SSE2 scan -/

theorem testBit7_eq_decide (b : Nat) (hb : b < 256) :
    b.testBit 7 = decide (0x80 ≤ b) := by
  rw [Nat.testBit_to_div_mod]
  have h128 : (2 : Nat) ^ 7 = 128 := by norm_num
  rw [h128]
  rcases Nat.lt_or_ge b 128 with h | h
  · have hd : b / 128 = 0 := by omega
    simp [hd, Nat.not_le.mpr h]
  · have hd : b / 128 = 1 := by omega
    simp [hd, h]

theorem movemask_eq_zero_iff (chunk : List Nat) :
    movemask chunk = 0 ↔ ∀ b ∈ chunk, b.testBit 7 = false := by
  induction chunk with
  | nil => simp [movemask]
  | cons b rest ih =>
    simp only [movemask, List.mem_cons]
    constructor
    · intro h
      by_cases hb : b.testBit 7
      · simp [hb] at h
      · simp only [hb, if_false] at h
        intro x hx
        cases hx with
        | inl he => rw [he]; simpa using hb
        | inr hm => exact ih.mp (by omega) x hm
    · intro h
      have hb : b.testBit 7 = false := h b (Or.inl rfl)
      have hrest : movemask rest = 0 := ih.mpr (fun x hx => h x (Or.inr hx))
      simp [hb, hrest]

theorem movemask_tz (chunk : List Nat) (h : movemask chunk ≠ 0) :
    ∃ pre b suf, chunk = pre ++ b :: suf ∧ (∀ x ∈ pre, x.testBit 7 = false) ∧
      b.testBit 7 = true ∧ trailingZerosU16 (movemask chunk) = pre.length := by
  induction chunk with
  | nil => simp [movemask] at h
  | cons b rest ih =>
    by_cases hb : b.testBit 7
    · refine ⟨[], b, rest, rfl, by simp, hb, ?_⟩
      have hmm : movemask (b :: rest) = 1 + 2 * movemask rest := by
        simp [movemask, hb]
      rw [hmm, trailingZerosU16]
      have h1 : ¬(1 + 2 * movemask rest = 0) := by omega
      have h2 : (1 + 2 * movemask rest) % 2 = 1 := by omega
      simp [h1, h2]
    · have hmm : movemask (b :: rest) = 2 * movemask rest := by
        simp [movemask, hb]
      have hrest : movemask rest ≠ 0 := by
        rw [hmm] at h; omega
      obtain ⟨pre, c, suf, heq, hpre, hc, htz⟩ := ih hrest
      refine ⟨b :: pre, c, suf, by rw [heq]; rfl, ?_, hc, ?_⟩
      · intro x hx
        cases List.mem_cons.mp hx with
        | inl he => rw [he]; simpa using hb
        | inr hm => exact hpre x hm
      · rw [hmm, trailingZerosU16]
        have h1 : ¬(2 * movemask rest = 0) := by omega
        have h2 : ¬((2 * movemask rest) % 2 = 1) := by omega
        rw [dif_neg h1, if_neg h2]
        have hdiv : 2 * movemask rest / 2 = movemask rest := by omega
        rw [hdiv, htz]
        simp

theorem raw_feed_simd_go_eq (input : List Nat) (h256 : ∀ b ∈ input, b < 256) :
    ∀ fuel sofar, sofar ≤ input.length / CHUNK_SIZE * CHUNK_SIZE →
      input.length / CHUNK_SIZE * CHUNK_SIZE - sofar ≤ CHUNK_SIZE * fuel →
      CHUNK_SIZE ∣ sofar →
      (∀ x ∈ input.take sofar, x < 0x80) →
      raw_feed_simd_go input (input.length / CHUNK_SIZE * CHUNK_SIZE) fuel sofar
        = slow_raw_feed input 0 := by
  have htl : input.length / CHUNK_SIZE * CHUNK_SIZE ≤ input.length :=
    Nat.div_mul_le_self _ _
  intro fuel
  induction fuel with
  | zero =>
    intro sofar hle hfuel _hdvd hpre
    have hso : sofar = input.length / CHUNK_SIZE * CHUNK_SIZE := by omega
    simp only [raw_feed_simd_go]
    exact slow_raw_feed_shift input sofar (by omega) hpre
  | succ fuel ih =>
    intro sofar hle hfuel hdvd hpre
    simp only [raw_feed_simd_go]
    by_cases heq : sofar = input.length / CHUNK_SIZE * CHUNK_SIZE
    · rw [if_pos heq]
      exact slow_raw_feed_shift input sofar (by omega) hpre
    · rw [if_neg heq]
      have hlt : sofar < input.length / CHUNK_SIZE * CHUNK_SIZE := by omega
      obtain ⟨a, ha⟩ := hdvd
      have hstep : sofar + CHUNK_SIZE ≤ input.length / CHUNK_SIZE * CHUNK_SIZE := by
        simp only [CHUNK_SIZE] at ha hlt ⊢
        omega
      have hvsub : (input.drop sofar).take CHUNK_SIZE ⊆ input := fun b hb =>
        List.drop_subset sofar input (List.take_subset CHUNK_SIZE (input.drop sofar) hb)
      have hv256 : ∀ b ∈ (input.drop sofar).take CHUNK_SIZE, b < 256 := fun b hb =>
        h256 b (hvsub hb)
      by_cases hmask : movemask ((input.drop sofar).take CHUNK_SIZE) = 0
      · rw [if_pos hmask]
        have hvascii : ∀ x ∈ (input.drop sofar).take CHUNK_SIZE, x < 0x80 := by
          intro x hx
          have htb : x.testBit 7 = false := (movemask_eq_zero_iff _).mp hmask x hx
          rw [testBit7_eq_decide x (hv256 x hx)] at htb
          simpa using htb
        apply ih (sofar + CHUNK_SIZE) hstep
          (by simp only [CHUNK_SIZE] at hfuel ⊢; omega) ⟨a + 1, by rw [ha]; ring⟩
        intro x hx
        rw [List.take_add] at hx
        cases List.mem_append.mp hx with
        | inl hm => exact hpre x hm
        | inr hm => exact hvascii x hm
      · rw [if_neg hmask]
        obtain ⟨pre, b, suf, hveq, hpretb, hbtb, htz⟩ := movemask_tz _ hmask
        have hpre128 : ∀ x ∈ pre, x < 0x80 := by
          intro x hx
          have hxv : x ∈ (input.drop sofar).take CHUNK_SIZE := by
            rw [hveq]; exact List.mem_append.mpr (Or.inl hx)
          have htb := hpretb x hx
          rw [testBit7_eq_decide x (hv256 x hxv)] at htb
          simpa using htb
        have hb128 : 0x80 ≤ b := by
          have hbv : b ∈ (input.drop sofar).take CHUNK_SIZE := by
            rw [hveq]
            exact List.mem_append.mpr (Or.inr (List.mem_cons_self b suf))
          have htb := hbtb
          rw [testBit7_eq_decide b (hv256 b hbv)] at htb
          simpa using htb
        have hpre' : ∀ x ∈ input.take sofar ++ pre, x < 0x80 := by
          intro x hx
          cases List.mem_append.mp hx with
          | inl hm => exact hpre x hm
          | inr hm => exact hpre128 x hm
        have hinput : input = (input.take sofar ++ pre) ++ b ::
            (suf ++ input.drop (sofar + CHUNK_SIZE)) := by
          conv_lhs => rw [← List.take_append_drop sofar input]
          have hdrop : input.drop sofar
              = (pre ++ b :: suf) ++ input.drop (sofar + CHUNK_SIZE) := by
            conv_lhs => rw [← List.take_append_drop CHUNK_SIZE (input.drop sofar)]
            rw [List.drop_drop, ← hveq]
          rw [hdrop]
          simp
        have hlentake : (input.take sofar).length = sofar := by
          rw [List.length_take]; omega
        have hrhs : slow_raw_feed input 0 = (sofar + pre.length, input.take sofar ++ pre) := by
          conv_lhs => rw [hinput]
          rw [slow_raw_feed_first_high _ b _ hpre' hb128]
          simp [hlentake]
        rw [htz, hrhs]
        have htake : input.take (sofar + pre.length) = input.take sofar ++ pre := by
          rw [List.take_add]
          congr 1
          have hdrop : input.drop sofar
              = pre ++ (b :: suf ++ input.drop (sofar + CHUNK_SIZE)) := by
            conv_lhs => rw [← List.take_append_drop CHUNK_SIZE (input.drop sofar)]
            rw [List.drop_drop, hveq]
            simp
          rw [hdrop, List.take_left]
        rw [htake]

/-! ### Further helper lemmas -/

theorem slow_raw_feed_cons (a : Nat) (l : List Nat) :
    slow_raw_feed (a :: l) 0
      = if 0x80 ≤ a then (0, ([] : List Nat))
        else ((slow_raw_feed l 0).1 + 1, a :: (slow_raw_feed l 0).2) := by
  unfold slow_raw_feed
  simp only [List.drop_zero]
  by_cases ha : 0x80 ≤ a
  · rw [List.findIdx?_cons]
    simp [ha]
  · rw [List.findIdx?_cons]
    have hpa : (decide (0x80 ≤ a)) = false := by simpa using ha
    rw [if_neg (by simp [hpa]), List.findIdx?_succ]
    cases hfe : l.findIdx? (fun ch => decide (0x80 ≤ ch)) with
    | none =>
      simp only [hfe, Option.map_none, ha, if_neg, List.length_cons]
      simp [List.take_length, ha]
    | some k =>
      simp only [hfe, Option.map_some, ha, if_neg]
      simp [ha, Nat.add_comm]

theorem raw_feed_writes_ascii (input : List Nat) :
    ∀ x ∈ (raw_feed input).2, x < 0x80 := by
  unfold raw_feed
  induction input with
  | nil =>
    intro x hx
    simp [slow_raw_feed] at hx
  | cons a l ih =>
    intro x hx
    rw [slow_raw_feed_cons] at hx
    by_cases ha : 0x80 ≤ a
    · simp [ha] at hx
    · rw [if_neg ha] at hx
      simp only [List.mem_cons] at hx
      cases hx with
      | inl he => rw [he]; omega
      | inr hm => exact ih x hm

theorem decoderRawFeed_written (input : List Nat) :
    (decoderRawFeed input).2.2 = (raw_feed input).2 := by
  unfold decoderRawFeed
  by_cases h : (raw_feed input).1 < input.length <;> simp [h]

theorem encoderFeedChunks_all_ascii (chunks : List (List Nat))
    (h : ∀ chunk ∈ chunks, ∀ x ∈ chunk, x < 0x80) :
    ∀ acc, encoderFeedChunks chunks acc
      = some (acc.1 + chunks.flatten.length, acc.2 ++ chunks.flatten) := by
  induction chunks with
  | nil => intro acc; simp [encoderFeedChunks]
  | cons chunk rest ih =>
    intro acc
    have hchunk : ∀ x ∈ chunk, x < 0x80 := h chunk (List.mem_cons_self chunk rest)
    have hrest : ∀ c ∈ rest, ∀ x ∈ c, x < 0x80 :=
      fun c hc => h c (List.mem_cons_of_mem chunk hc)
    simp only [encoderFeedChunks, encoderRawFeed_all_ascii chunk hchunk]
    rw [ih hrest]
    simp [List.flatten_cons]
    omega

theorem decoderFeedChunks_all_ascii (chunks : List (List Nat))
    (h : ∀ chunk ∈ chunks, ∀ x ∈ chunk, x < 0x80) :
    ∀ acc, decoderFeedChunks chunks acc
      = (acc.1 + chunks.flatten.length, acc.2 ++ chunks.flatten) := by
  induction chunks with
  | nil => intro acc; simp [decoderFeedChunks]
  | cons chunk rest ih =>
    intro acc
    have hchunk : ∀ x ∈ chunk, x < 0x80 := h chunk (List.mem_cons_self chunk rest)
    have hrest : ∀ c ∈ rest, ∀ x ∈ c, x < 0x80 :=
      fun c hc => h c (List.mem_cons_of_mem chunk hc)
    simp only [decoderFeedChunks, decoderRawFeed_all_ascii chunk hchunk]
    rw [ih hrest]
    simp [List.flatten_cons]
    omega

/-! ### Claim theorems -/

/-- C1: For every byte slice input (all entries byte-valued), the SSE2
vector scan (`raw_feed_simd`, 16-byte chunks via a per-lane high-bit
movemask, tail to `slow_raw_feed`) and the scalar scan (`slow_raw_feed`
from offset 0) return the same offset and write the same byte sequence to
the sink; this covers in particular a first high byte at index 15, 16 or
17 of a chunk boundary. -/
theorem vector_scan_eq_scalar_scan (input : List Nat)
    (h256 : ∀ b ∈ input, b < 256) :
    raw_feed_simd input = raw_feed input := by
  unfold raw_feed_simd raw_feed
  exact raw_feed_simd_go_eq input h256 _ 0 (Nat.zero_le _)
    (by simp only [CHUNK_SIZE]; omega) ⟨0, rfl⟩ (by simp)

theorem vector_scan_eq_scalar_scan_witness :
    ((∀ b ∈ List.replicate 15 65 ++ 160 :: List.replicate 19 66, b < 256) ∧
      raw_feed_simd (List.replicate 15 65 ++ 160 :: List.replicate 19 66)
        = raw_feed (List.replicate 15 65 ++ 160 :: List.replicate 19 66)) ∧
    ((∀ b ∈ List.replicate 16 65 ++ 160 :: List.replicate 18 66, b < 256) ∧
      raw_feed_simd (List.replicate 16 65 ++ 160 :: List.replicate 18 66)
        = raw_feed (List.replicate 16 65 ++ 160 :: List.replicate 18 66)) ∧
    ((∀ b ∈ List.replicate 17 65 ++ 160 :: List.replicate 17 66, b < 256) ∧
      raw_feed_simd (List.replicate 17 65 ++ 160 :: List.replicate 17 66)
        = raw_feed (List.replicate 17 65 ++ 160 :: List.replicate 17 66)) :=
  ⟨⟨by decide, vector_scan_eq_scalar_scan _ (by decide)⟩,
   ⟨by decide, vector_scan_eq_scalar_scan _ (by decide)⟩,
   ⟨by decide, vector_scan_eq_scalar_scan _ (by decide)⟩⟩

/-- C2: On a valid UTF-8 input whose first character with code point
`≥ 0x80` is `c` (all characters of `pre` before it being ASCII), the
encoder's `raw_feed` consumes exactly the characters before `c`, reports
`upto = consumed + utf8Len c` with the unrepresentable-character cause,
and the sink receives exactly the bytes of the consumed characters. -/
theorem encoder_error_at_first_nonascii (pre : List Nat) (c : Nat) (suf : List Nat)
    (hpre : ∀ x ∈ pre, ValidChar x ∧ x < 0x80)
    (hc : ValidChar c) (hchigh : 0x80 ≤ c)
    (hsuf : ∀ x ∈ suf, ValidChar x) :
    encoderRawFeed (pre ++ c :: suf)
      = some (pre.length,
          some ⟨((pre.length + utf8Len c : Nat) : Int), "unrepresentable character"⟩,
          utf8Bytes pre) := by
  have hpre' : ∀ x ∈ pre, x < 0x80 := fun x hx => (hpre x hx).2
  rw [encoderRawFeed_first_high pre c suf hpre' hchigh, utf8Bytes_ascii pre hpre']

theorem encoder_error_at_first_nonascii_witness :
    (∀ x ∈ [65, 66], ValidChar x ∧ x < 0x80) ∧ ValidChar 160 ∧ 0x80 ≤ 160 ∧
      (∀ x ∈ [67], ValidChar x) ∧
      encoderRawFeed ([65, 66] ++ 160 :: [67])
        = some ([65, 66].length,
            some ⟨(([65, 66].length + utf8Len 160 : Nat) : Int),
              "unrepresentable character"⟩,
            utf8Bytes [65, 66]) :=
  ⟨by decide, by decide, by decide, by decide,
    encoder_error_at_first_nonascii [65, 66] 160 [67]
      (by decide) (by decide) (by decide) (by decide)⟩

/-- C3: On a byte slice whose first byte with the top bit set is `b` at
index `pre.length`, the decoder's `raw_feed` consumes exactly the bytes
before `b`, reports `upto = consumed + 1` with the invalid-sequence cause,
and the sink receives exactly those first bytes verbatim. -/
theorem decoder_error_at_first_high (pre : List Nat) (b : Nat) (suf : List Nat)
    (hbytes : ∀ x ∈ pre ++ b :: suf, x < 256)
    (hpre : ∀ x ∈ pre, x < 0x80) (hb : 0x80 ≤ b) :
    decoderRawFeed (pre ++ b :: suf)
      = (pre.length, some ⟨(pre.length : Int) + 1, "invalid sequence"⟩, pre) :=
  decoderRawFeed_first_high pre b suf hpre hb

theorem decoder_error_at_first_high_witness :
    (∀ x ∈ [88] ++ 160 :: [90], x < 256) ∧ (∀ x ∈ [88], x < 0x80) ∧ 0x80 ≤ 160 ∧
      decoderRawFeed ([88] ++ 160 :: [90])
        = ([88].length, some ⟨([88].length : Int) + 1, "invalid sequence"⟩, [88]) :=
  ⟨by decide, by decide, by decide,
    decoder_error_at_first_high [88] 160 [90] (by decide) (by decide) (by decide)⟩

/-- C4: On all-valid input (every unit `≤ 0x7F`), including the empty
input, `raw_feed` in both directions consumes everything with no error and
the sink receives the entire input. -/
theorem all_valid_consumed_without_error (encInput decInput : List Nat)
    (henc : ∀ c ∈ encInput, c ≤ 0x7F) (hdec : ∀ b ∈ decInput, b ≤ 0x7F) :
    encoderRawFeed encInput = some (encInput.length, none, encInput) ∧
    decoderRawFeed decInput = (decInput.length, none, decInput) :=
  ⟨encoderRawFeed_all_ascii encInput (fun c hc => by have := henc c hc; omega),
   decoderRawFeed_all_ascii decInput (fun b hb => by have := hdec b hb; omega)⟩

theorem all_valid_consumed_without_error_witness :
    (∀ c ∈ ([] : List Nat), c ≤ 0x7F) ∧ (∀ b ∈ ([] : List Nat), b ≤ 0x7F) ∧
      encoderRawFeed [] = some (List.length ([] : List Nat), none, []) ∧
      decoderRawFeed [] = (List.length ([] : List Nat), none, []) :=
  ⟨by decide, by decide,
    (all_valid_consumed_without_error [] [] (by decide) (by decide)).1,
    (all_valid_consumed_without_error [] [] (by decide) (by decide)).2⟩

/-- C5: For every code point `c ≤ 0x7F`, encoding the one-character string
`[c]` yields the single byte `c` with no error, and decoding that byte
yields the one-character string `[c]` with no error. -/
theorem ascii_round_trip (c : Nat) (h : c ≤ 0x7F) :
    encoderRawFeed [c] = some (1, none, [c]) ∧
    decoderRawFeed [c] = (1, none, [c]) := by
  have hlt : ∀ x ∈ [c], x < 0x80 := by
    intro x hx
    simp only [List.mem_singleton] at hx
    omega
  refine ⟨?_, ?_⟩
  · simpa using encoderRawFeed_all_ascii [c] hlt
  · simpa using decoderRawFeed_all_ascii [c] hlt

theorem ascii_round_trip_witness :
    (65 : Nat) ≤ 0x7F ∧ encoderRawFeed [65] = some (1, none, [65]) ∧
      decoderRawFeed [65] = (1, none, [65]) :=
  ⟨by decide, (ascii_round_trip 65 (by decide)).1, (ascii_round_trip 65 (by decide)).2⟩

/-- C6: Feeding an all-valid stream split into any list of consecutive
chunks through successive `raw_feed` calls yields the same total consumed
count and the same final sink contents as feeding the whole stream in a
single call, for both the encoder and the decoder. -/
theorem split_feed_matches_single_feed (chunks : List (List Nat))
    (h : ∀ chunk ∈ chunks, ∀ x ∈ chunk, x < 0x80) :
    encoderFeedChunks chunks (0, [])
        = some (chunks.flatten.length, chunks.flatten) ∧
    encoderRawFeed chunks.flatten
        = some (chunks.flatten.length, none, chunks.flatten) ∧
    decoderFeedChunks chunks (0, []) = (chunks.flatten.length, chunks.flatten) ∧
    decoderRawFeed chunks.flatten
        = (chunks.flatten.length, none, chunks.flatten) := by
  have hflat : ∀ x ∈ chunks.flatten, x < 0x80 := by
    intro x hx
    obtain ⟨l, hl, hxl⟩ := List.mem_flatten.mp hx
    exact h l hl x hxl
  refine ⟨?_, encoderRawFeed_all_ascii _ hflat, ?_, decoderRawFeed_all_ascii _ hflat⟩
  · simpa using encoderFeedChunks_all_ascii chunks h (0, [])
  · simpa using decoderFeedChunks_all_ascii chunks h (0, [])

theorem split_feed_matches_single_feed_witness :
    (∀ chunk ∈ [[65], [66, 67], []], ∀ x ∈ chunk, x < 0x80) ∧
      (encoderFeedChunks [[65], [66, 67], []] (0, [])
          = some ([[65], [66, 67], []].flatten.length, [[65], [66, 67], []].flatten) ∧
        encoderRawFeed [[65], [66, 67], []].flatten
          = some ([[65], [66, 67], []].flatten.length, none, [[65], [66, 67], []].flatten) ∧
        decoderFeedChunks [[65], [66, 67], []] (0, [])
          = ([[65], [66, 67], []].flatten.length, [[65], [66, 67], []].flatten) ∧
        decoderRawFeed [[65], [66, 67], []].flatten
          = ([[65], [66, 67], []].flatten.length, none, [[65], [66, 67], []].flatten)) :=
  ⟨by decide, split_feed_matches_single_feed [[65], [66, 67], []] (by decide)⟩

/-- C7: `raw_finish` of both the encoder and the decoder returns `None`
and leaves the sink contents unchanged, for every sink state. -/
theorem finish_returns_none_and_writes_nothing (sink : List Nat) :
    encoderRawFinish sink = (none, sink) ∧ decoderRawFinish sink = (none, sink) :=
  ⟨rfl, rfl⟩

/-- C8: `is_ascii_compatible` returns `true` for both the encoder and the
decoder of this encoding. -/
theorem sessions_are_ascii_compatible :
    encoderIsAsciiCompatible = true ∧ decoderIsAsciiCompatible = true :=
  ⟨rfl, rfl⟩

/-- C9: For every valid UTF-8 input, the encoder's `raw_feed` never hits
the panic case: when the scan stops before the end, the offset is a
character boundary, the character lookup succeeds, and the `unwrap`
cannot panic (the result is never `none`). -/
theorem encoder_unwrap_never_panics (input : List Nat)
    (h : ∀ c ∈ input, ValidChar c) :
    (encoderRawFeed input).isSome = true := by
  by_cases hhigh : ∃ x ∈ input, 0x80 ≤ x
  · obtain ⟨p, hp, hh⟩ := hhigh
    obtain ⟨pre, c, suf, heq, hpre, hc⟩ := first_high_decomposition input p hp hh
    rw [heq, encoderRawFeed_first_high pre c suf hpre hc]
    rfl
  · push_neg at hhigh
    rw [encoderRawFeed_all_ascii input (fun c hc => hhigh c hc)]
    rfl

theorem encoder_unwrap_never_panics_witness :
    (∀ c ∈ [65, 0x2603, 66], ValidChar c) ∧
      (encoderRawFeed [65, 0x2603, 66]).isSome = true :=
  ⟨by decide, encoder_unwrap_never_panics [65, 0x2603, 66] (by decide)⟩

/-- C10: Every byte the decoder writes through the byte-writer view of the
string sink is `< 0x80`, so appending them to any valid UTF-8 sink
contents leaves the sink valid UTF-8 (the contents are the UTF-8 encoding
of a longer valid character sequence). -/
theorem decoder_sink_stays_valid_utf8 (input : List Nat) :
    (∀ b ∈ (decoderRawFeed input).2.2, b < 0x80) ∧
    (∀ prev : List Nat, (∀ c ∈ prev, ValidChar c) →
      ∃ cs : List Nat, (∀ c ∈ cs, ValidChar c) ∧
        utf8Bytes cs = utf8Bytes prev ++ (decoderRawFeed input).2.2) := by
  have hw : ∀ b ∈ (decoderRawFeed input).2.2, b < 0x80 := by
    rw [decoderRawFeed_written]
    exact raw_feed_writes_ascii input
  refine ⟨hw, ?_⟩
  intro prev hprev
  refine ⟨prev ++ (decoderRawFeed input).2.2, ?_, ?_⟩
  · intro c hc
    cases List.mem_append.mp hc with
    | inl hm => exact hprev c hm
    | inr hm =>
      have := hw c hm
      exact ⟨by omega, by omega⟩
  · rw [utf8Bytes_append, utf8Bytes_ascii _ hw]

theorem decoder_sink_stays_valid_utf8_witness :
    (∀ b ∈ (decoderRawFeed [88, 160, 90]).2.2, b < 0x80) ∧
      (∀ c ∈ [65], ValidChar c) ∧
      ∃ cs : List Nat, (∀ c ∈ cs, ValidChar c) ∧
        utf8Bytes cs = utf8Bytes [65] ++ (decoderRawFeed [88, 160, 90]).2.2 :=
  ⟨(decoder_sink_stays_valid_utf8 [88, 160, 90]).1, by decide,
    (decoder_sink_stays_valid_utf8 [88, 160, 90]).2 [65] (by decide)⟩

end AsciiCodec
